import Mathlib

/-!
Verification of the DOM traversal module of a rich text editor
(crates/wysiwyg/src/dom/iter.rs).

The module provides two iterators over a DOM tree:
* `DomIterator`: a stack based, forward only, preorder walk of a subtree;
* `DomNodeIterator`: a double ended iterator over the whole document,
  anchored at an arbitrary node, navigating purely by path addresses
  (`DomHandle`) together with a set of already visited addresses.

The Rust code is generic over a `UnicodeString` type for node payloads; the
payload never influences traversal, so text data and container names are
modelled as `Nat` labels here.
-/

/-- Modelled from the spec: a `DomHandle` (defined outside this module) is a
path of child indices from the document root; `parent_handle` strips the last
segment, `index_in_parent` reads it, `child_handle i` appends `i`, and
`has_parent` is false exactly for the root (empty) path. -/
abbrev DomHandle := List Nat

/-- Modelled from the spec: the four node kinds of the external tree type.
Only containers carry children; payloads are `Nat` labels since traversal
never inspects them. -/
inductive DomNode where
  | container : Nat → List DomNode → DomNode
  | text : Nat → DomNode
  | lineBreak : DomNode
  | zwsp : DomNode
deriving Repr

/-- Modelled from the spec: the document tree; its root (`document_node`) is
always a container node. -/
structure Dom where
  docName : Nat
  children : List DomNode
deriving Repr

def Dom.document_node (dom : Dom) : DomNode :=
  DomNode.container dom.docName dom.children

/-- Modelled from the spec: resolve a path address inside a node
(`lookup_node`); succeeds exactly when the address denotes a node. -/
def lookupNode : DomNode → DomHandle → Option DomNode
  | n, [] => some n
  | DomNode.container _ cs, i :: rest =>
    (cs.get? i).bind (fun c => lookupNode c rest)
  | _, _ :: _ => none

def Dom.lookup_node (dom : Dom) (h : DomHandle) : Option DomNode :=
  lookupNode dom.document_node h

def isContainerNode : DomNode → Bool
  | DomNode.container _ _ => true
  | _ => false

def isTextNode : DomNode → Bool
  | DomNode.text _ => true
  | _ => false

/-- State of `DomNodeIterator` (iter.rs lines 147-155): a started flag, the
current node (by its address; the Rust reference and its handle determine
each other through `lookup_node`), and the set of visited addresses. -/
structure DomNodeIterator where
  started : Bool
  current : Option DomHandle
  visited : List DomHandle
deriving Repr, DecidableEq

/-- `DomNodeIterator::over` (iter.rs lines 161-168). -/
def DomNodeIterator.over (h : DomHandle) : DomNodeIterator :=
  ⟨false, some h, []⟩

/-- `DomNodeIterator::next_sibling_or_parent` (iter.rs lines 170-186):
climb from `h` to the first ancestor (including `h` itself) that has a next
sibling and return that sibling; `none` at the end of the document.  The
panic branch (parent not a container) is modelled separately by
`nsopPanics`; here it yields `none`. -/
def nsopRev (dom : Dom) : List Nat → Option DomHandle
  | [] =>
    match dom.lookup_node [] with
    | some (DomNode.container _ cs) =>
      if 0 + 1 < cs.length then some [0 + 1] else none
    | _ => none
  | j :: pr =>
    match dom.lookup_node pr.reverse with
    | some (DomNode.container _ cs) =>
      if j + 1 < cs.length then some (pr.reverse ++ [j + 1])
      else if pr = [] then none
      else nsopRev dom pr
    | _ => none

def nextSiblingOrParent (dom : Dom) (h : DomHandle) : Option DomHandle :=
  nsopRev dom h.reverse

/-- `DomNodeIterator::prev_sibling_or_parent` (iter.rs lines 188-212):
previous sibling if the index allows, otherwise move to the parent, emitting
a parent at most once (recorded in the visited set).  Returns the new
current position and the updated visited set. -/
def psopRev (dom : Dom) :
    List Nat → List DomHandle → Option DomHandle × List DomHandle
  | [], vis =>
    match dom.lookup_node [] with
    | some (DomNode.container _ _) =>
      if [] ∈ vis then (none, vis) else (some [], [] :: vis)
    | _ => (none, vis)
  | j :: pr, vis =>
    match dom.lookup_node pr.reverse with
    | some (DomNode.container _ _) =>
      if 0 < j then (some (pr.reverse ++ [j - 1]), vis)
      else if pr = [] then
        if [] ∈ vis then (none, vis) else (some [], [] :: vis)
      else if pr.reverse ∈ vis then psopRev dom pr vis
      else (some pr.reverse, pr.reverse :: vis)
    | _ => (none, vis)

def prevSiblingOrParent (dom : Dom) (h : DomHandle) (vis : List DomHandle) :
    Option DomHandle × List DomHandle :=
  psopRev dom h.reverse vis

/-- `Iterator::next` for `DomNodeIterator` (iter.rs lines 236-256).
From a container whose first child address is unvisited, descend to the
first child (`children().first()`, which is `none` for an empty container);
otherwise move to the next sibling or parent.  The handle of the node
emitted this call (the old current) is added to the visited set. -/
def iterNext (dom : Dom) (s : DomNodeIterator) :
    Option DomHandle × DomNodeIterator :=
  match s.current with
  | none => (none, s)
  | some h =>
    if s.started then
      let c : Option DomHandle :=
        match dom.lookup_node h with
        | some (DomNode.container _ cs) =>
          if (h ++ [0]) ∈ s.visited then nextSiblingOrParent dom h
          else if cs.isEmpty then none else some (h ++ [0])
        | some _ =>
          if h = [] then some h else nextSiblingOrParent dom h
        | none => some h
      (c, ⟨true, c, h :: s.visited⟩)
    else (some h, ⟨true, some h, h :: s.visited⟩)

/-- `DoubleEndedIterator::next_back` for `DomNodeIterator` (iter.rs lines
263-291).  From an unvisited, non-empty container whose last child is
unvisited, descend to the last child; otherwise move to the previous sibling
or parent; at the root, end.  The emitted handle is added to visited. -/
def iterNextBack (dom : Dom) (s : DomNodeIterator) :
    Option DomHandle × DomNodeIterator :=
  match s.current with
  | none => (none, s)
  | some h =>
    if s.started then
      match dom.lookup_node h with
      | some (DomNode.container _ cs) =>
        if h ∉ s.visited ∧ ¬cs.isEmpty ∧ (h ++ [cs.length - 1]) ∉ s.visited
        then
          (some (h ++ [cs.length - 1]),
            ⟨true, some (h ++ [cs.length - 1]), h :: s.visited⟩)
        else if h = [] then (none, ⟨true, none, h :: s.visited⟩)
        else
          let p := prevSiblingOrParent dom h s.visited
          (p.1, ⟨true, p.1, h :: p.2⟩)
      | some _ =>
        if h = [] then (some h, ⟨true, some h, h :: s.visited⟩)
        else
          let p := prevSiblingOrParent dom h s.visited
          (p.1, ⟨true, p.1, h :: p.2⟩)
      | none => (some h, ⟨true, some h, h :: s.visited⟩)
    else (some h, ⟨true, some h, h :: s.visited⟩)

/-- Collect the elements of a pure-forward drive of a `DomNodeIterator`,
with explicit fuel; stops at the first empty pull. -/
def collectFwd (dom : Dom) : Nat → DomNodeIterator → List DomHandle
  | 0, _ => []
  | fuel + 1, s =>
    match iterNext dom s with
    | (none, _) => []
    | (some h, s2) => h :: collectFwd dom fuel s2

/-- Collect the elements of a pure-backward drive of a `DomNodeIterator`. -/
def collectBack (dom : Dom) : Nat → DomNodeIterator → List DomHandle
  | 0, _ => []
  | fuel + 1, s =>
    match iterNextBack dom s with
    | (none, _) => []
    | (some h, s2) => h :: collectBack dom fuel s2

/-- A single pull from the chosen end (`true` = front). -/
def pull (dom : Dom) (front : Bool) (s : DomNodeIterator) :
    Option DomHandle × DomNodeIterator :=
  if front then iterNext dom s else iterNextBack dom s

/-- Outputs of a sequence of pulls, each from the chosen end. -/
def pullSeq (dom : Dom) : List Bool → DomNodeIterator → List (Option DomHandle)
  | [], _ => []
  | d :: ds, s => (pull dom d s).1 :: pullSeq dom ds (pull dom d s).2

/-- A `DomIterator` frame (`NodeAndChildIndex`, iter.rs lines 130-137). -/
structure NodeAndChildIndex where
  node : DomNode
  child_index : Nat
deriving Repr

/-- State of the subtree iterator `DomIterator` (iter.rs lines 139-145).
The innermost (most recently pushed) frame is the head of the list. -/
structure DomIterator where
  started : Bool
  ancestors : List NodeAndChildIndex
deriving Repr

/-- `DomIterator::over` (iter.rs lines 219-227). -/
def DomIterator.over (n : DomNode) : DomIterator :=
  ⟨false, [⟨n, 0⟩]⟩

/-- The started part of `Iterator::next` for `DomIterator` (iter.rs lines
300-330): inspect the innermost frame; emit its next child and push a frame
for it when that child is a container; pop exhausted frames and retry. -/
def subNextGo : List NodeAndChildIndex → Option DomNode × List NodeAndChildIndex
  | [] => (none, [])
  | ⟨n, i⟩ :: rest =>
    match n with
    | DomNode.container nm cs =>
      match cs.get? i with
      | some c =>
        (some c,
          if isContainerNode c then
            ⟨c, 0⟩ :: ⟨DomNode.container nm cs, i + 1⟩ :: rest
          else ⟨DomNode.container nm cs, i + 1⟩ :: rest)
      | none => subNextGo rest
    | _ => (none, ⟨n, i⟩ :: rest)

/-- `Iterator::next` for `DomIterator`: the first pull emits the starting
node itself (frame stack untouched); later pulls run `subNextGo`. -/
def subNext (s : DomIterator) : Option DomNode × DomIterator :=
  if s.started then
    ((subNextGo s.ancestors).1, ⟨true, (subNextGo s.ancestors).2⟩)
  else
    ((s.ancestors.head?).map NodeAndChildIndex.node, ⟨true, s.ancestors⟩)

/-- Collect the outputs of driving a `DomIterator`, with fuel. -/
def collectSub : Nat → DomIterator → List DomNode
  | 0, _ => []
  | fuel + 1, s =>
    match subNext s with
    | (none, _) => []
    | (some c, s2) => c :: collectSub fuel s2

/-- Outputs of `k` successive pulls on a `DomIterator` (used for the
fusedness claim). -/
def subSeq : Nat → DomIterator → List (Option DomNode)
  | 0, _ => []
  | k + 1, s => (subNext s).1 :: subSeq k (subNext s).2

mutual
/-- Preorder document walk of the subtree at handle `g`: the handle of every
node of the subtree, a node before its children, children left to right. -/
def preorderAux (g : DomHandle) : DomNode → List DomHandle
  | DomNode.container _ cs => g :: preorderKids g 0 cs
  | _ => [g]
def preorderKids (g : DomHandle) (i : Nat) : List DomNode → List DomHandle
  | [] => []
  | c :: rest => preorderAux (g ++ [i]) c ++ preorderKids g (i + 1) rest
end

/-- Handles of the whole document in preorder document order. -/
def preorder (dom : Dom) : List DomHandle :=
  preorderAux [] dom.document_node

mutual
/-- Preorder list of the nodes of a subtree (what `DomIterator` should
produce). -/
def preorderNodes : DomNode → List DomNode
  | DomNode.container nm cs => DomNode.container nm cs :: preorderNodesList cs
  | n => [n]
def preorderNodesList : List DomNode → List DomNode
  | [] => []
  | c :: rest => preorderNodes c ++ preorderNodesList rest
end

mutual
/-- Every container of the subtree has at least one child (the documented
invariant of `Dom`: no empty containers). -/
def noEmptyContainers : DomNode → Bool
  | DomNode.container _ cs => !cs.isEmpty && noEmptyList cs
  | _ => true
def noEmptyList : List DomNode → Bool
  | [] => true
  | c :: rest => noEmptyContainers c && noEmptyList rest
end

/-- The example document of the test suite (iter.rs lines 340-346): a list
with two items, the first holding text b and a bold span with text c, the
second holding text foo; then an italic span with text d, text e, a line
break and a bold span with text x.  Container labels: 1 = list, 2 = item,
3 = bold, 4 = italic.  Text labels: 1 = b, 2 = c, 3 = foo, 4 = d, 5 = e,
6 = x. -/
def exampleDom : Dom :=
  ⟨0,
    [DomNode.container 1
      [DomNode.container 2 [DomNode.text 1, DomNode.container 3 [DomNode.text 2]],
       DomNode.container 2 [DomNode.text 3]],
     DomNode.container 4 [DomNode.text 4],
     DomNode.text 5,
     DomNode.lineBreak,
     DomNode.container 3 [DomNode.text 6]]⟩


/-- The position the forward iterator moves to from a valid current node
whose first child address is unvisited: descend into a container (nowhere,
for an empty container), otherwise next sibling or parent. -/
def stepFwd (dom : Dom) (h : DomHandle) : Option DomHandle :=
  match dom.lookup_node h with
  | some (DomNode.container _ cs) =>
    if cs.isEmpty then none else some (h ++ [0])
  | some _ => if h = [] then some h else nextSiblingOrParent dom h
  | none => some h

/-- The small remaining prev-node and next-node operations of `Dom`
(iter.rs lines 72-104): run a fresh whole-document iterator anchored at the
handle, discard the anchor, pull once more. -/
def Dom.next_handle (dom : Dom) (h : DomHandle) : Option DomHandle :=
  (iterNext dom (iterNext dom (DomNodeIterator.over h)).2).1

def Dom.next_node (dom : Dom) (h : DomHandle) : Option DomNode :=
  (dom.next_handle h).bind dom.lookup_node

def Dom.prev_handle (dom : Dom) (h : DomHandle) : Option DomHandle :=
  (iterNextBack dom (iterNextBack dom (DomNodeIterator.over h)).2).1

def Dom.prev_node (dom : Dom) (h : DomHandle) : Option DomNode :=
  (dom.prev_handle h).bind dom.lookup_node

/-- What the backward cursor step actually returns for a non-root handle:
the previous sibling when the index in the parent is positive, otherwise
the parent itself.  Written from the words of the amended claim, to be
compared with `Dom.prev_handle`. -/
def prevSiblingOrParentSpec (h : DomHandle) : Option DomHandle :=
  if h = [] then none
  else if h.getLastD 0 = 0 then some h.dropLast
  else some (h.dropLast ++ [h.getLastD 0 - 1])

/-- The nodes a frame stack of `DomIterator` has still to emit: for each
frame, the preorder lists of the children not yet handed out. -/
def framesRem : List NodeAndChildIndex → List DomNode
  | [] => []
  | ⟨n, i⟩ :: rest =>
    (match n with
     | DomNode.container _ cs => preorderNodesList (cs.drop i)
     | _ => []) ++ framesRem rest

/-- The lazy filtered view over the whole-document iterator (`filter_map`
in the Rust source): each underlying pull is delegated one for one and only
elements satisfying the predicate are kept. -/
def collectFwdFiltered (dom : Dom) (p : DomHandle → Bool) :
    Nat → DomNodeIterator → List DomHandle
  | 0, _ => []
  | fuel + 1, s =>
    match iterNext dom s with
    | (none, _) => []
    | (some h, s2) =>
      if p h then h :: collectFwdFiltered dom p fuel s2
      else collectFwdFiltered dom p fuel s2

/-- The lazy filtered view over the subtree iterator. -/
def collectSubFiltered (p : DomNode → Bool) : Nat → DomIterator → List DomNode
  | 0, _ => []
  | fuel + 1, s =>
    match subNext s with
    | (none, _) => []
    | (some c, s2) =>
      if p c then c :: collectSubFiltered p fuel s2
      else collectSubFiltered p fuel s2

/-- The node-kind test applied through a handle (what `as_text` on the
emitted reference checks). -/
def textAt (dom : Dom) (h : DomHandle) : Bool :=
  match dom.lookup_node h with
  | some m => isTextNode m
  | none => false

/-- `Dom::iter_text` (iter.rs lines 41-43). -/
def iterTextRun (dom : Dom) (fuel : Nat) : List DomNode :=
  collectSubFiltered isTextNode fuel (DomIterator.over dom.document_node)

/-- `Dom::iter_containers` (iter.rs lines 47-49). -/
def iterContainersRun (dom : Dom) (fuel : Nat) : List DomNode :=
  collectSubFiltered isContainerNode fuel (DomIterator.over dom.document_node)

/-- `Dom::iter_text_from` (iter.rs lines 65-70). -/
def iterTextFromRun (dom : Dom) (fuel : Nat) (h : DomHandle) : List DomHandle :=
  collectFwdFiltered dom (textAt dom) fuel (DomNodeIterator.over h)

/-- `DomNode::iter_text_in_subtree` (iter.rs lines 119-121). -/
def iterTextInSubtreeRun (n : DomNode) (fuel : Nat) : List DomNode :=
  collectSubFiltered isTextNode fuel (DomIterator.over n)

/-- True exactly when evaluating `next_sibling_or_parent` at this handle
would take the `Parent node must be a container` panic branch at some point
of its recursive ascent (mirrors the branch structure of `nsopRev`). -/
def nsopPanicsRev (dom : Dom) : List Nat → Bool
  | [] =>
    match dom.lookup_node [] with
    | some (DomNode.container _ _) => false
    | _ => true
  | j :: pr =>
    match dom.lookup_node pr.reverse with
    | some (DomNode.container _ cs) =>
      if j + 1 < cs.length then false
      else if pr = [] then false
      else nsopPanicsRev dom pr
    | _ => true

def nsopPanics (dom : Dom) (h : DomHandle) : Bool :=
  nsopPanicsRev dom h.reverse

/-- True exactly when evaluating `prev_sibling_or_parent` at this handle
with this visited set would take the `Parent node must be a container`
panic branch (mirrors the branch structure of `psopRev`). -/
def psopPanicsRev (dom : Dom) : List Nat → List DomHandle → Bool
  | [], _ =>
    match dom.lookup_node [] with
    | some (DomNode.container _ _) => false
    | _ => true
  | j :: pr, vis =>
    match dom.lookup_node pr.reverse with
    | some (DomNode.container _ _) =>
      if 0 < j then false
      else if pr = [] then false
      else if pr.reverse ∈ vis then psopPanicsRev dom pr vis
      else false
    | _ => true

def psopPanics (dom : Dom) (h : DomHandle) (vis : List DomHandle) : Bool :=
  psopPanicsRev dom h.reverse vis

-- ===================== theorems =====================

theorem lookup_append (a b : DomHandle) :
    ∀ n : DomNode,
      lookupNode n (a ++ b) = (lookupNode n a).bind (fun m => lookupNode m b) := by
  induction a with
  | nil => intro n; simp [lookupNode]
  | cons i a ih =>
    intro n
    cases n with
    | container nm cs =>
      simp only [List.cons_append, lookupNode, Option.bind_assoc]
      cases cs.get? i with
      | none => rfl
      | some c => simp [ih]
    | text d => simp [lookupNode]
    | lineBreak => simp [lookupNode]
    | zwsp => simp [lookupNode]

theorem lookup_single (nm : Nat) (cs : List DomNode) (j : Nat) :
    lookupNode (DomNode.container nm cs) [j] = cs.get? j := by
  simp only [lookupNode]
  cases cs.get? j with
  | none => rfl
  | some c => rfl

/-- Every handle that resolves to a node and is not the root resolves, one
level up, to a container holding that node at the handle's last index. -/
theorem lookup_parent_container (dom : Dom) (h : DomHandle) (x : DomNode)
    (hnil : h ≠ []) (hv : dom.lookup_node h = some x) :
    ∃ nm cs, dom.lookup_node h.dropLast = some (DomNode.container nm cs) ∧
      cs.get? (h.getLastD 0) = some x := by
  have hdec := List.dropLast_append_getLast hnil
  rw [← hdec] at hv
  unfold Dom.lookup_node at hv ⊢
  rw [lookup_append] at hv
  cases hg : lookupNode dom.document_node h.dropLast with
  | none => rw [hg] at hv; simp at hv
  | some m =>
    rw [hg] at hv
    cases m with
    | container nm cs =>
      refine ⟨nm, cs, rfl, ?_⟩
      rw [← hdec, List.getLastD_concat]
      simpa [lookup_single] using hv
    | text d => simp [lookupNode] at hv
    | lineBreak => simp [lookupNode] at hv
    | zwsp => simp [lookupNode] at hv

/-- The forward iterator performs exactly `stepFwd` whenever the first child
address of the current node is not in the visited set. -/
theorem iterNext_eq_stepFwd (dom : Dom) (v : List DomHandle) (h : DomHandle)
    (hfr : (h ++ [0]) ∉ v) :
    iterNext dom ⟨true, some h, v⟩ =
      (stepFwd dom h, ⟨true, stepFwd dom h, h :: v⟩) := by
  simp only [iterNext, stepFwd]
  cases dom.lookup_node h with
  | none => rfl
  | some m =>
    cases m with
    | container nm cs => simp [hfr]
    | text d => rfl
    | lineBreak => rfl
    | zwsp => rfl

/-- In a list chained by a partial successor function whose last element
maps to nothing, the function sends the element at position `i` to the
element at position `i + 1`. -/
theorem chain_step {f : DomHandle → Option DomHandle} :
    ∀ (l : List DomHandle),
      List.Chain' (fun a b => f a = some b) l →
      (∀ a, l.getLast? = some a → f a = none) →
      ∀ i x, l.get? i = some x → f x = l.get? (i + 1) := by
  intro l
  induction l with
  | nil => intro _ _ i x hx; simp at hx
  | cons x0 t ih =>
    intro hc hlast i x hx
    cases t with
    | nil =>
      cases i with
      | zero =>
        have hxx : x0 = x := by simpa using hx
        subst hxx
        simpa using hlast x0 (by simp)
      | succ j => simp at hx
    | cons x1 t2 =>
      cases i with
      | zero =>
        have hxx : x0 = x := by simpa using hx
        subst hxx
        simpa using (List.chain'_cons.mp hc).1
      | succ j =>
        simp only [List.get?] at hx ⊢
        exact ih (List.chain'_cons.mp hc).2
          (fun a ha => hlast a (by simpa using ha)) j x hx

/-- Driving the iterator purely forward along a successor chain emits the
whole chain: the workhorse behind the forward-suffix results. -/
theorem runList (dom : Dom) :
    ∀ (t : List DomHandle) (h : DomHandle) (V : List DomHandle) (fuel : Nat),
      List.Chain' (fun a b => stepFwd dom a = some b) (h :: t) →
      (∀ a, (h :: t).getLast? = some a → stepFwd dom a = none) →
      List.Pairwise (fun a b => ¬(b <+: a)) (h :: t) →
      (∀ x ∈ h :: t, (x ++ [0]) ∉ V) →
      t.length + 1 ≤ fuel →
      collectFwd dom fuel ⟨true, some h, V⟩ = t := by
  intro t
  induction t with
  | nil =>
    intro h V fuel _ hlast _ hfr hfuel
    obtain ⟨f, rfl⟩ : ∃ f, fuel = f + 1 := ⟨fuel - 1, by omega⟩
    simp only [collectFwd]
    rw [iterNext_eq_stepFwd dom V h (hfr h (by simp))]
    rw [hlast h (by simp)]
  | cons h2 t2 ih =>
    intro h V fuel hc hlast hpw hfr hfuel
    obtain ⟨f, rfl⟩ : ∃ f, fuel = f + 1 := ⟨fuel - 1, by omega⟩
    simp only [collectFwd]
    rw [iterNext_eq_stepFwd dom V h (hfr h (by simp))]
    rw [(List.chain'_cons.mp hc).1]
    have hpw' := List.pairwise_cons.mp hpw
    refine congrArg (h2 :: ·) (ih h2 (h :: V) f (List.chain'_cons.mp hc).2
      (fun a ha => hlast a (by simpa using ha)) hpw'.2 ?_
      (by simp only [List.length_cons] at hfuel; omega))
    intro x hx
    simp only [List.mem_cons]
    push_neg
    constructor
    · intro hcontra
      exact hpw'.1 x hx (hcontra ▸ List.prefix_append x [0])
    · exact hfr x (by simp [hx])

theorem preorderAux_head (g : DomHandle) (n : DomNode) :
    (preorderAux g n).head? = some g := by
  cases n <;> simp [preorderAux]

theorem preorderAux_ne_nil (g : DomHandle) (n : DomNode) :
    preorderAux g n ≠ [] := by
  cases n <;> simp [preorderAux]

theorem preorderKids_head (g : DomHandle) (i : Nat) (c : DomNode)
    (cs : List DomNode) :
    (preorderKids g i (c :: cs)).head? = some (g ++ [i]) := by
  simp [preorderKids, List.head?_append, preorderAux_head]

theorem getLast?_cons_of_ne_nil {α : Type} (a : α) {l : List α}
    (h : l ≠ []) : (a :: l).getLast? = l.getLast? := by
  cases l with
  | nil => exact absurd rfl h
  | cons b t => exact List.getLast?_cons_cons

theorem getLast?_append_of_ne_nil {α : Type} (l : List α) {l2 : List α}
    (h : l2 ≠ []) : (l ++ l2).getLast? = l2.getLast? := by
  rw [List.getLast?_append]
  cases hq : l2.getLast? with
  | none => exact absurd (List.getLast?_eq_none_iff.mp hq) h
  | some a => rfl

theorem drop_cons_parts {α : Type} {l : List α} {i : Nat} {c : α}
    {r : List α} (h : l.drop i = c :: r) :
    l.get? i = some c ∧ l.drop (i + 1) = r := by
  constructor
  · have h0 := List.get?_drop l i 0
    rw [h] at h0
    simpa using h0.symm
  · rw [← List.tail_drop, h]
    rfl

theorem prefix_eq_of_length_eq {α : Type} {p1 p2 x : List α}
    (h1 : p1 <+: x) (h2 : p2 <+: x) (hl : p1.length = p2.length) :
    p1 = p2 := by
  rw [List.prefix_iff_eq_take] at h1 h2
  rw [h1, h2, hl]

theorem concat_inj_last {α : Type} {g : List α} {a b : α}
    (h : g ++ [a] = g ++ [b]) : a = b := by
  have := List.append_cancel_left h
  simpa using this

theorem noEmptyList_mem {cs : List DomNode} (h : noEmptyList cs = true)
    {c : DomNode} (hc : c ∈ cs) : noEmptyContainers c = true := by
  induction cs with
  | nil => simp at hc
  | cons a t ih =>
    rw [noEmptyList, Bool.and_eq_true] at h
    rcases List.mem_cons.mp hc with rfl | hmem
    · exact h.1
    · exact ih h.2 hmem

mutual
theorem preorderAux_ancestorOf (g : DomHandle) (n : DomNode) :
    ∀ x ∈ preorderAux g n, g <+: x := by
  cases n with
  | container nm cs =>
    intro x hx
    rw [preorderAux, List.mem_cons] at hx
    rcases hx with rfl | hx
    · exact List.prefix_refl x
    · obtain ⟨j, _, hj⟩ := preorderKids_ancestorOf g 0 cs x hx
      exact (List.prefix_append g [0 + j]).trans hj
  | text d =>
    intro x hx
    have hxg : x = g := by simpa [preorderAux] using hx
    subst hxg
    exact List.prefix_refl x
  | lineBreak =>
    intro x hx
    have hxg : x = g := by simpa [preorderAux] using hx
    subst hxg
    exact List.prefix_refl x
  | zwsp =>
    intro x hx
    have hxg : x = g := by simpa [preorderAux] using hx
    subst hxg
    exact List.prefix_refl x

theorem preorderKids_ancestorOf (g : DomHandle) (i : Nat) (cs : List DomNode) :
    ∀ x ∈ preorderKids g i cs,
      ∃ j, j < cs.length ∧ (g ++ [i + j]) <+: x := by
  cases cs with
  | nil => intro x hx; rw [preorderKids] at hx; simp at hx
  | cons c rest =>
    intro x hx
    rw [preorderKids, List.mem_append] at hx
    rcases hx with hx | hx
    · exact ⟨0, by simp, preorderAux_ancestorOf (g ++ [i]) c x hx⟩
    · obtain ⟨j, hjl, hj⟩ := preorderKids_ancestorOf g (i + 1) rest x hx
      refine ⟨j + 1, by simpa using Nat.succ_lt_succ hjl, ?_⟩
      have : i + (j + 1) = i + 1 + j := by omega
      rw [this]
      exact hj
end

mutual
theorem preorderAux_pairwise (g : DomHandle) (n : DomNode) :
    List.Pairwise (fun a b => ¬(b <+: a)) (preorderAux g n) := by
  cases n with
  | container nm cs =>
    rw [preorderAux, List.pairwise_cons]
    constructor
    · intro b hb hpre
      obtain ⟨j, _, hj⟩ := preorderKids_ancestorOf g 0 cs b hb
      have h1 : g.length + 1 ≤ b.length := by
        simpa using hj.length_le
      have h2 : b.length ≤ g.length := hpre.length_le
      omega
    · exact preorderKids_pairwise g 0 cs
  | text d => simp [preorderAux]
  | lineBreak => simp [preorderAux]
  | zwsp => simp [preorderAux]

theorem preorderKids_pairwise (g : DomHandle) (i : Nat) (cs : List DomNode) :
    List.Pairwise (fun a b => ¬(b <+: a)) (preorderKids g i cs) := by
  cases cs with
  | nil => rw [preorderKids]; exact List.Pairwise.nil
  | cons c rest =>
    rw [preorderKids, List.pairwise_append]
    refine ⟨preorderAux_pairwise (g ++ [i]) c,
      preorderKids_pairwise g (i + 1) rest, ?_⟩
    intro a ha b hb hpre
    have hpa : (g ++ [i]) <+: a := preorderAux_ancestorOf (g ++ [i]) c a ha
    obtain ⟨j, _, hpb⟩ := preorderKids_ancestorOf g (i + 1) rest b hb
    have hpba : (g ++ [i + 1 + j]) <+: a := hpb.trans hpre
    have heq : (g ++ [i]) = (g ++ [i + 1 + j]) :=
      prefix_eq_of_length_eq hpa hpba (by simp)
    have := concat_inj_last heq
    omega
end

theorem nsop_concat (dom : Dom) (g : DomHandle) (i nm : Nat)
    (csAll : List DomNode)
    (hv : dom.lookup_node g = some (DomNode.container nm csAll)) :
    nextSiblingOrParent dom (g ++ [i]) =
      (if i + 1 < csAll.length then some (g ++ [i + 1])
       else if g = [] then none else nextSiblingOrParent dom g) := by
  unfold nextSiblingOrParent
  rw [List.reverse_append]
  simp only [List.reverse_cons, List.reverse_nil, List.nil_append,
    List.singleton_append]
  rw [nsopRev]
  simp only [List.reverse_reverse, hv, List.reverse_eq_nil_iff]

theorem psop_concat (dom : Dom) (g : DomHandle) (i nm : Nat)
    (csAll : List DomNode) (vis : List DomHandle)
    (hv : dom.lookup_node g = some (DomNode.container nm csAll)) :
    prevSiblingOrParent dom (g ++ [i]) vis =
      (if 0 < i then (some (g ++ [i - 1]), vis)
       else if g = [] then
         (if [] ∈ vis then (none, vis) else (some [], [] :: vis))
       else if g ∈ vis then prevSiblingOrParent dom g vis
       else (some g, g :: vis)) := by
  unfold prevSiblingOrParent
  rw [List.reverse_append]
  simp only [List.reverse_cons, List.reverse_nil, List.nil_append,
    List.singleton_append]
  rw [psopRev]
  simp only [List.reverse_reverse, hv, List.reverse_eq_nil_iff]

mutual
theorem chainSub (dom : Dom) (n : DomNode) (g : DomHandle)
    (hg : g ≠ []) (hv : dom.lookup_node g = some n)
    (hne : noEmptyContainers n = true) :
    List.Chain' (fun a b => stepFwd dom a = some b) (preorderAux g n) ∧
      (∀ a, (preorderAux g n).getLast? = some a →
        stepFwd dom a = nextSiblingOrParent dom g) := by
  cases n with
  | container nm cs =>
    rw [noEmptyContainers, Bool.and_eq_true] at hne
    have hcs : ¬cs.isEmpty = true := by simpa using hne.1
    have hcsne : cs ≠ [] := by simpa [List.isEmpty_iff] using hcs
    have hk := chainKids dom cs g 0 nm cs hv rfl hne.2
    have hkids_ne : preorderKids g 0 cs ≠ [] := by
      cases cs with
      | nil => exact absurd rfl hcsne
      | cons c rest =>
        intro hnil
        have hh := preorderKids_head g 0 c rest
        rw [hnil] at hh
        simp at hh
    constructor
    · rw [preorderAux, List.chain'_cons']
      refine ⟨?_, hk.1⟩
      intro y hy
      rw [Option.mem_def] at hy
      cases cs with
      | nil => exact absurd rfl hcsne
      | cons c rest =>
        rw [preorderKids_head] at hy
        injection hy with hy
        subst hy
        simp [stepFwd, hv, hcs]
    · intro a ha
      rw [preorderAux, getLast?_cons_of_ne_nil g hkids_ne] at ha
      have hfin := hk.2 a ha
      rw [if_neg hg] at hfin
      exact hfin
  | text d =>
    refine ⟨by simp [preorderAux], ?_⟩
    intro a ha
    have hag : g = a := by simpa [preorderAux] using ha
    subst hag
    simp [stepFwd, hv, hg]
  | lineBreak =>
    refine ⟨by simp [preorderAux], ?_⟩
    intro a ha
    have hag : g = a := by simpa [preorderAux] using ha
    subst hag
    simp [stepFwd, hv, hg]
  | zwsp =>
    refine ⟨by simp [preorderAux], ?_⟩
    intro a ha
    have hag : g = a := by simpa [preorderAux] using ha
    subst hag
    simp [stepFwd, hv, hg]

theorem chainKids (dom : Dom) (cs : List DomNode) (g : DomHandle) (i : Nat)
    (nm : Nat) (csAll : List DomNode)
    (hv : dom.lookup_node g = some (DomNode.container nm csAll))
    (hdrop : csAll.drop i = cs)
    (hne : noEmptyList csAll = true) :
    List.Chain' (fun a b => stepFwd dom a = some b) (preorderKids g i cs) ∧
      (∀ a, (preorderKids g i cs).getLast? = some a →
        stepFwd dom a =
          (if g = [] then none else nextSiblingOrParent dom g)) := by
  cases cs with
  | nil =>
    refine ⟨by rw [preorderKids]; exact List.chain'_nil, ?_⟩
    intro a ha
    rw [preorderKids] at ha
    simp at ha
  | cons c rest =>
    obtain ⟨hget, hdrop2⟩ := drop_cons_parts hdrop
    have hvc : dom.lookup_node (g ++ [i]) = some c := by
      unfold Dom.lookup_node at hv ⊢
      rw [lookup_append, hv]
      simpa [lookup_single] using hget
    have hnec : noEmptyContainers c = true :=
      noEmptyList_mem hne (List.get?_mem hget)
    have hsub := chainSub dom c (g ++ [i]) (by simp) hvc hnec
    have hilt : i < csAll.length := by
      by_contra hco
      push_neg at hco
      rw [List.get?_eq_none.mpr hco] at hget
      exact Option.noConfusion hget
    cases rest with
    | nil =>
      have hlen : csAll.length = i + 1 := by
        have h1 : csAll.length ≤ i + 1 := List.drop_eq_nil_iff_le.mp hdrop2
        omega
      refine ⟨?_, ?_⟩
      · simp only [preorderKids, List.append_nil]
        exact hsub.1
      · intro a ha
        simp only [preorderKids, List.append_nil] at ha
        rw [hsub.2 a ha, nsop_concat dom g i nm csAll hv]
        rw [if_neg (by omega : ¬ i + 1 < csAll.length)]
    | cons r1 r2 =>
      have hrest_ne : preorderKids g (i + 1) (r1 :: r2) ≠ [] := by
        intro hnil
        have hh := preorderKids_head g (i + 1) r1 r2
        rw [hnil] at hh
        simp at hh
      have hk2 := chainKids dom (r1 :: r2) g (i + 1) nm csAll hv hdrop2 hne
      have hlt : i + 1 < csAll.length := by
        by_contra hco
        push_neg at hco
        rw [List.drop_eq_nil_of_le hco] at hdrop2
        exact List.noConfusion hdrop2
      constructor
      · rw [preorderKids, List.chain'_append]
        refine ⟨hsub.1, hk2.1, ?_⟩
        intro x hx y hy
        rw [Option.mem_def] at hx hy
        rw [preorderKids_head] at hy
        injection hy with hy
        subst hy
        rw [hsub.2 x hx, nsop_concat dom g i nm csAll hv, if_pos hlt]
      · intro a ha
        rw [preorderKids, getLast?_append_of_ne_nil _ hrest_ne] at ha
        exact hk2.2 a ha
end

/-- The whole-document preorder list is chained by `stepFwd`, and its last
element steps to nothing (for documents without empty containers). -/
theorem preorder_chain (dom : Dom) (hne : noEmptyList dom.children = true) :
    List.Chain' (fun a b => stepFwd dom a = some b) (preorder dom) ∧
      (∀ a, (preorder dom).getLast? = some a → stepFwd dom a = none) := by
  have hv : dom.lookup_node [] =
      some (DomNode.container dom.docName dom.children) := rfl
  have hk := chainKids dom dom.children [] 0 dom.docName dom.children hv
    rfl hne
  have hpre : preorder dom = [] :: preorderKids [] 0 dom.children := by
    rw [preorder, Dom.document_node, preorderAux]
  constructor
  · rw [hpre, List.chain'_cons']
    refine ⟨?_, hk.1⟩
    intro y hy
    rw [Option.mem_def] at hy
    cases hcs : dom.children with
    | nil => rw [hcs] at hy; rw [preorderKids] at hy; simp at hy
    | cons c rest =>
      rw [hcs, preorderKids_head] at hy
      injection hy with hy
      subst hy
      have hv2 : dom.lookup_node [] =
          some (DomNode.container dom.docName (c :: rest)) := by
        rw [hv, hcs]
      simp [stepFwd, hv2]
  · intro a ha
    rw [hpre] at ha
    cases hcs : dom.children with
    | nil =>
      rw [hcs] at ha
      rw [preorderKids] at ha
      have hag : a = [] := by simpa using ha
      subst hag
      have hv2 : dom.lookup_node [] =
          some (DomNode.container dom.docName []) := by
        rw [hv, hcs]
      simp [stepFwd, hv2]
    | cons c rest =>
      have hkne : preorderKids [] 0 dom.children ≠ [] := by
        rw [hcs]
        intro hnil
        have hh := preorderKids_head ([] : DomHandle) 0 c rest
        rw [hnil] at hh
        simp at hh
      rw [getLast?_cons_of_ne_nil _ hkne] at ha
      have hfin := hk.2 a ha
      simpa using hfin

theorem chain'_drop {α : Type} {R : α → α → Prop} {l : List α}
    (hc : List.Chain' R l) : ∀ i, List.Chain' R (l.drop i) := by
  intro i
  induction i with
  | zero => simpa using hc
  | succ j ih =>
    rw [← List.tail_drop]
    exact List.Chain'.tail ih

theorem getLast?_drop_of_ne_nil {α : Type} :
    ∀ (l : List α) (i : Nat), l.drop i ≠ [] →
      (l.drop i).getLast? = l.getLast? := by
  intro l
  induction l with
  | nil => intro i hi; simp at hi
  | cons a t ih =>
    intro i hi
    cases i with
    | zero => rfl
    | succ j =>
      rw [List.drop_succ_cons] at hi ⊢
      rw [ih j hi]
      have ht : t ≠ [] := by
        intro hteq
        rw [hteq] at hi
        simp at hi
      exact (getLast?_cons_of_ne_nil a ht).symm

theorem iterNext_start (dom : Dom) (h : DomHandle) :
    iterNext dom (DomNodeIterator.over h) = (some h, ⟨true, some h, [h]⟩) :=
  rfl

/-- C3 (amended): for every tree all of whose containers are non-empty and
every anchor, driving the whole-document iterator only forward yields
exactly the suffix of the full preorder document walk starting at the
anchor.  The claim as stated also covered trees with an empty container,
asserting that a forward step at a childless container advances to its next
sibling or parent; the code instead sets the current node to the missing
first child and ends the sequence there (see the counterexample). -/
theorem c3_forward_suffix (dom : Dom) (i : Nat) (h : DomHandle) (fuel : Nat)
    (hne : noEmptyList dom.children = true)
    (hh : (preorder dom).get? i = some h)
    (hf : (preorder dom).length + 1 ≤ fuel) :
    collectFwd dom fuel (DomNodeIterator.over h) = (preorder dom).drop i := by
  obtain ⟨f, rfl⟩ : ∃ f, fuel = f + 1 := ⟨fuel - 1, by omega⟩
  have hilt : i < (preorder dom).length := by
    by_contra hco
    push_neg at hco
    rw [List.get?_eq_none.mpr hco] at hh
    exact Option.noConfusion hh
  have hdrop : (preorder dom).drop i = h :: (preorder dom).drop (i + 1) := by
    rw [List.drop_eq_get_cons hilt]
    congr 1
    have hg := List.get?_eq_get hilt
    rw [hg] at hh
    exact Option.some.inj hh
  have hchain := chain'_drop (preorder_chain dom hne).1 i
  rw [hdrop] at hchain
  have hpw : List.Pairwise (fun a b => ¬(b <+: a))
      (h :: (preorder dom).drop (i + 1)) := by
    rw [← hdrop]
    exact List.Pairwise.sublist (List.drop_sublist i _)
      (preorderAux_pairwise [] dom.document_node)
  have hlast : ∀ a, (h :: (preorder dom).drop (i + 1)).getLast? = some a →
      stepFwd dom a = none := by
    intro a ha
    rw [← hdrop] at ha
    rw [getLast?_drop_of_ne_nil _ i
      (by rw [hdrop]; exact List.cons_ne_nil _ _)] at ha
    exact (preorder_chain dom hne).2 a ha
  have hfr : ∀ x ∈ h :: (preorder dom).drop (i + 1),
      (x ++ [0]) ∉ ([h] : List DomHandle) := by
    intro x hx hmem
    rw [List.mem_singleton] at hmem
    rcases List.mem_cons.mp hx with rfl | hx2
    · have hlen := congrArg List.length hmem
      simp at hlen
    · exact (List.pairwise_cons.mp hpw).1 x hx2
        (hmem ▸ List.prefix_append x [0])
  have hstart : collectFwd dom (f + 1) (DomNodeIterator.over h) =
      h :: collectFwd dom f ⟨true, some h, [h]⟩ := by
    rw [collectFwd, iterNext_start]
  rw [hstart, hdrop]
  congr 1
  apply runList dom _ h [h] f hchain hlast hpw hfr
  have hld := List.length_drop (i + 1) (preorder dom)
  omega

/-- C3 witness: in the example document, anchoring at the text node c
(position 5 of the preorder walk) and driving forward yields exactly the
preorder suffix from that position. -/
theorem c3_forward_suffix_witness :
    collectFwd exampleDom 15 (DomNodeIterator.over [0, 0, 1, 0]) =
      (preorder exampleDom).drop 5 :=
  c3_forward_suffix exampleDom 5 [0, 0, 1, 0] 15 (by decide) (by decide)
    (by decide)

/-- A document whose first child is a childless container followed by a
text node. -/
def domWithEmpty : Dom :=
  ⟨0, [DomNode.container 7 [], DomNode.text 8]⟩

/-- C3 counterexample: on a tree containing an empty container the forward
drive from the root emits the root and the empty container and then stops,
skipping the following text node, so it is not the preorder suffix from the
anchor. -/
theorem c3_counterexample :
    collectFwd domWithEmpty 10 (DomNodeIterator.over []) = [[], [0]] ∧
      preorder domWithEmpty = [[], [0], [1]] ∧
      collectFwd domWithEmpty 10 (DomNodeIterator.over []) ≠
        (preorder domWithEmpty).drop 0 := by
  refine ⟨by decide, by decide, by decide⟩

/-- C7: the first element pulled from either end of a freshly constructed
whole-document iterator is the anchor itself (for every document and every
anchor handle). -/
theorem c7_anchor_first (dom : Dom) (h : DomHandle) :
    (iterNext dom (DomNodeIterator.over h)).1 = some h ∧
      (iterNextBack dom (DomNodeIterator.over h)).1 = some h :=
  ⟨rfl, rfl⟩

/-- A document holding exactly two text nodes. -/
def domTwoTexts : Dom :=
  ⟨0, [DomNode.text 1, DomNode.text 2]⟩

/-- C1: the claim fails on the code.  On a root with two text children,
anchoring at the first child and pulling front, front, back emits the
address of the first child twice: `prev_sibling_or_parent` returns a
previous sibling without consulting the visited set, so interleaved pulls
re-emit already-emitted addresses.  This contradicts the explicit contract
(and the `DoubleEndedIterator` contract the code implements), so it is a
bug in the code rather than in the claim. -/
theorem c1_mixed_pull_duplicate :
    pullSeq domTwoTexts [true, true, false] (DomNodeIterator.over [0]) =
      [some [0], some [1], some [0]] ∧
      ¬ (pullSeq domTwoTexts [true, true, false]
          (DomNodeIterator.over [0])).Nodup := by
  refine ⟨by decide, by decide⟩

/-- C2 counterexample: in the example document, the iterator anchored at
the last bold span (handle [4]) and pulled entirely backward does not yield
the reverse of the full forward document-order sequence. -/
theorem c2_counterexample :
    collectBack exampleDom 20 (DomNodeIterator.over [4]) ≠
      (collectFwd exampleDom 20 (DomNodeIterator.over [])).reverse := by
  decide

/-- C2 (amended): in the example document the full forward drive from the
root is exactly the preorder walk (names: root, list, item, b, bold, c,
item, foo, italic, d, e, br, bold, x), while the backward drive anchored at
the last bold span emits the bold span, then the line break, text e, the
italic span before its own text d, then the list container before the
contents of its items in backward sibling order, and the root last —
matching the code's own test, not the reversed forward sequence: the
backward walk emits a previous sibling (and an ancestor reached from its
first child) before the nodes inside it. -/
theorem c2_backward_order :
    collectFwd exampleDom 20 (DomNodeIterator.over []) = preorder exampleDom ∧
      preorder exampleDom =
        [[], [0], [0, 0], [0, 0, 0], [0, 0, 1], [0, 0, 1, 0], [0, 1],
         [0, 1, 0], [1], [1, 0], [2], [3], [4], [4, 0]] ∧
      collectBack exampleDom 20 (DomNodeIterator.over [4]) =
        [[4], [3], [2], [1], [1, 0], [0], [0, 1], [0, 1, 0], [0, 0],
         [0, 0, 1], [0, 0, 1, 0], [0, 0, 0], []] := by
  refine ⟨by decide, by decide, by decide⟩

mutual
theorem stepLast_sub (dom : Dom) (n : DomNode) (g : DomHandle)
    (hg : g ≠ []) (hv : dom.lookup_node g = some n)
    (hnsop : nextSiblingOrParent dom g = none) :
    ∀ a, (preorderAux g n).getLast? = some a → stepFwd dom a = none := by
  cases n with
  | container nm cs =>
    cases cs with
    | nil =>
      intro a ha
      simp only [preorderAux, preorderKids] at ha
      have hag : g = a := by simpa using ha
      subst hag
      simp [stepFwd, hv]
    | cons c rest =>
      intro a ha
      have hkne : preorderKids g 0 (c :: rest) ≠ [] := by
        intro hnil
        have hh := preorderKids_head g 0 c rest
        rw [hnil] at hh
        simp at hh
      rw [preorderAux, getLast?_cons_of_ne_nil g hkne] at ha
      exact stepLast_kids dom (c :: rest) g 0 nm (c :: rest) hv rfl
        (by rw [if_neg hg]; exact hnsop) a ha
  | text d =>
    intro a ha
    have hag : g = a := by simpa [preorderAux] using ha
    subst hag
    simp [stepFwd, hv, hg, hnsop]
  | lineBreak =>
    intro a ha
    have hag : g = a := by simpa [preorderAux] using ha
    subst hag
    simp [stepFwd, hv, hg, hnsop]
  | zwsp =>
    intro a ha
    have hag : g = a := by simpa [preorderAux] using ha
    subst hag
    simp [stepFwd, hv, hg, hnsop]

theorem stepLast_kids (dom : Dom) (cs : List DomNode) (g : DomHandle)
    (i : Nat) (nm : Nat) (csAll : List DomNode)
    (hv : dom.lookup_node g = some (DomNode.container nm csAll))
    (hdrop : csAll.drop i = cs)
    (hcont : (if g = [] then none else nextSiblingOrParent dom g) = none) :
    ∀ a, (preorderKids g i cs).getLast? = some a → stepFwd dom a = none := by
  cases cs with
  | nil =>
    intro a ha
    rw [preorderKids] at ha
    simp at ha
  | cons c rest =>
    obtain ⟨hget, hdrop2⟩ := drop_cons_parts hdrop
    have hvc : dom.lookup_node (g ++ [i]) = some c := by
      unfold Dom.lookup_node at hv ⊢
      rw [lookup_append, hv]
      simpa [lookup_single] using hget
    have hilt : i < csAll.length := by
      by_contra hco
      push_neg at hco
      rw [List.get?_eq_none.mpr hco] at hget
      exact Option.noConfusion hget
    cases rest with
    | nil =>
      intro a ha
      simp only [preorderKids, List.append_nil] at ha
      have hlen : csAll.length = i + 1 := by
        have h1 : csAll.length ≤ i + 1 := List.drop_eq_nil_iff_le.mp hdrop2
        omega
      refine stepLast_sub dom c (g ++ [i]) (by simp) hvc ?_ a ha
      rw [nsop_concat dom g i nm csAll hv,
        if_neg (by omega : ¬ i + 1 < csAll.length)]
      exact hcont
    | cons r1 r2 =>
      intro a ha
      have hrest_ne : preorderKids g (i + 1) (r1 :: r2) ≠ [] := by
        intro hnil
        have hh := preorderKids_head g (i + 1) r1 r2
        rw [hnil] at hh
        simp at hh
      rw [preorderKids, getLast?_append_of_ne_nil _ hrest_ne] at ha
      exact stepLast_kids dom (r1 :: r2) g (i + 1) nm csAll hv hdrop2 hcont
        a ha
end

/-- The last element of the whole-document preorder walk has no forward
successor (this holds for every tree, empty containers included). -/
theorem step_getLast_none (dom : Dom) :
    ∀ a, (preorder dom).getLast? = some a → stepFwd dom a = none := by
  intro a ha
  have hpre : preorder dom = [] :: preorderKids [] 0 dom.children := by
    rw [preorder, Dom.document_node, preorderAux]
  rw [hpre] at ha
  have hv : dom.lookup_node [] =
      some (DomNode.container dom.docName dom.children) := rfl
  cases hcs : dom.children with
  | nil =>
    rw [hcs] at ha
    rw [preorderKids] at ha
    have hag : ([] : DomHandle) = a := by simpa using ha
    subst hag
    have hv2 : dom.lookup_node [] =
        some (DomNode.container dom.docName []) := by
      rw [hv, hcs]
    simp [stepFwd, hv2]
  | cons c rest =>
    have hkne : preorderKids [] 0 dom.children ≠ [] := by
      rw [hcs]
      intro hnil
      have hh := preorderKids_head ([] : DomHandle) 0 c rest
      rw [hnil] at hh
      simp at hh
    rw [getLast?_cons_of_ne_nil _ hkne] at ha
    exact stepLast_kids dom dom.children [] 0 dom.docName dom.children hv
      rfl (by simp) a ha

/-- C6: pulling backward from the document root yields exactly one element
(the root) and is then exhausted; pulling forward from the last node of the
preorder document walk yields exactly that node and is then exhausted. -/
theorem c6_boundary_termination (dom : Dom) (fuel : Nat) (hf : 2 ≤ fuel) :
    collectBack dom fuel (DomNodeIterator.over []) = [[]] ∧
      (∀ L, (preorder dom).getLast? = some L →
        collectFwd dom fuel (DomNodeIterator.over L) = [L]) := by
  obtain ⟨f, rfl⟩ : ∃ f, fuel = f + 2 := ⟨fuel - 2, by omega⟩
  constructor
  · have h1 : iterNextBack dom (DomNodeIterator.over []) =
        (some [], ⟨true, some [], [[]]⟩) := rfl
    have h2 : iterNextBack dom ⟨true, some [], [[]]⟩ =
        (none, ⟨true, none, [] :: [[]]⟩) := rfl
    have e1 : collectBack dom (f + 2) (DomNodeIterator.over []) =
        [] :: collectBack dom (f + 1) ⟨true, some [], [[]]⟩ := by
      rw [collectBack, h1]
    have e2 : collectBack dom (f + 1) ⟨true, some [], [[]]⟩ = [] := by
      rw [collectBack, h2]
    rw [e1, e2]
  · intro L hL
    have hstep := iterNext_eq_stepFwd dom [L] L (by
      intro hmem
      rw [List.mem_singleton] at hmem
      have hlen := congrArg List.length hmem
      simp at hlen)
    have hnone := step_getLast_none dom L hL
    have e1 : collectFwd dom (f + 2) (DomNodeIterator.over L) =
        L :: collectFwd dom (f + 1) ⟨true, some L, [L]⟩ := by
      rw [collectFwd, iterNext_start]
    have e2 : collectFwd dom (f + 1) ⟨true, some L, [L]⟩ = [] := by
      rw [collectFwd, hstep, hnone]
    rw [e1, e2]

/-- C6 witness: the example document; the last node of the walk is the text
node x at handle [4, 0]. -/
theorem c6_boundary_termination_witness :
    collectBack exampleDom 20 (DomNodeIterator.over []) = [[]] ∧
      collectFwd exampleDom 20 (DomNodeIterator.over [4, 0]) = [[4, 0]] := by
  obtain ⟨hb, hfwd⟩ := c6_boundary_termination exampleDom 20 (by decide)
  exact ⟨hb, hfwd [4, 0] (by decide)⟩

/-- C4 (amended): for trees without empty containers, `next_node` and
`next_handle` return the node (handle) immediately following the given one
in preorder document order, and nothing exactly at the last node.
`prev_node` and `prev_handle`, however, return the previous sibling when
the handle's index in its parent is positive and otherwise the parent
itself (nothing exactly at the root) — not, as the claim stated, the
immediately preceding node in preorder document order (see the
counterexample: the predecessor deep inside the previous sibling's subtree
is skipped). -/
theorem c4_next_prev (dom : Dom) (h : DomHandle) (n : DomNode) (i : Nat)
    (hv : dom.lookup_node h = some n)
    (hne : noEmptyList dom.children = true)
    (hh : (preorder dom).get? i = some h) :
    dom.next_handle h = (preorder dom).get? (i + 1) ∧
      dom.next_node h = ((preorder dom).get? (i + 1)).bind dom.lookup_node ∧
      dom.prev_handle h = prevSiblingOrParentSpec h ∧
      dom.prev_node h = (prevSiblingOrParentSpec h).bind dom.lookup_node := by
  have hnext : dom.next_handle h = stepFwd dom h := by
    unfold Dom.next_handle
    rw [iterNext_start]
    rw [iterNext_eq_stepFwd dom [h] h (by
      intro hmem
      rw [List.mem_singleton] at hmem
      have hlen := congrArg List.length hmem
      simp at hlen)]
  have hstep : stepFwd dom h = (preorder dom).get? (i + 1) :=
    chain_step (preorder dom) (preorder_chain dom hne).1
      (preorder_chain dom hne).2 i h hh
  have hprev : dom.prev_handle h = prevSiblingOrParentSpec h := by
    by_cases hnil : h = []
    · subst hnil
      rfl
    · obtain ⟨g, j, rfl⟩ : ∃ g j, h = g ++ [j] :=
        ⟨h.dropLast, h.getLast hnil, (List.dropLast_append_getLast hnil).symm⟩
      obtain ⟨nmp, csp, hpar, _⟩ :=
        lookup_parent_container dom (g ++ [j]) n hnil hv
      rw [List.dropLast_concat] at hpar
      unfold Dom.prev_handle
      have hb1 : iterNextBack dom (DomNodeIterator.over (g ++ [j])) =
          (some (g ++ [j]),
            ⟨true, some (g ++ [j]), [g ++ [j]]⟩) := rfl
      rw [hb1]
      have hb2 : (iterNextBack dom
            ⟨true, some (g ++ [j]), [g ++ [j]]⟩).1 =
          (prevSiblingOrParent dom (g ++ [j]) [g ++ [j]]).1 := by
        cases n with
        | container nm2 cs2 =>
          simp only [iterNextBack, hv]
          rw [if_pos trivial]
          rw [if_neg (by
            intro hand
            exact hand.1 (List.mem_singleton.mpr rfl))]
          rw [if_neg hnil]
        | text d =>
          simp only [iterNextBack, hv]
          rw [if_pos trivial, if_neg hnil]
        | lineBreak =>
          simp only [iterNextBack, hv]
          rw [if_pos trivial, if_neg hnil]
        | zwsp =>
          simp only [iterNextBack, hv]
          rw [if_pos trivial, if_neg hnil]
      rw [hb2, psop_concat dom g j nmp csp [g ++ [j]] hpar]
      unfold prevSiblingOrParentSpec
      rw [if_neg hnil, List.getLastD_concat, List.dropLast_concat]
      by_cases hj : 0 < j
      · rw [if_pos hj, if_neg (by omega : ¬ j = 0)]
      · have hj0 : j = 0 := by omega
        subst hj0
        rw [if_neg hj, if_pos rfl]
        by_cases hgnil : g = []
        · subst hgnil
          rw [if_pos rfl]
          rw [if_neg (by
            intro hmem
            rw [List.mem_singleton] at hmem
            exact hnil hmem.symm)]
        · rw [if_neg hgnil]
          rw [if_neg (by
            intro hmem
            rw [List.mem_singleton] at hmem
            have hlen := congrArg List.length hmem
            simp at hlen)]
  refine ⟨hnext.trans hstep, ?_, hprev, ?_⟩
  · unfold Dom.next_node
    rw [hnext.trans hstep]
  · unfold Dom.prev_node
    rw [hprev]

/-- C4 witness: in the example document the text node e sits at handle [2],
position 10 of the preorder walk; its successor is the line break [3] and
its backward step yields the italic span [1]. -/
theorem c4_next_prev_witness :
    exampleDom.next_handle [2] = (preorder exampleDom).get? 11 ∧
      exampleDom.next_node [2] =
        ((preorder exampleDom).get? 11).bind exampleDom.lookup_node ∧
      exampleDom.prev_handle [2] = prevSiblingOrParentSpec [2] ∧
      exampleDom.prev_node [2] =
        (prevSiblingOrParentSpec [2]).bind exampleDom.lookup_node :=
  c4_next_prev exampleDom [2] (DomNode.text 5) 10 rfl (by decide) (by decide)

/-- A document whose first child is a container with one text child,
followed by a second text node. -/
def domNested : Dom :=
  ⟨0, [DomNode.container 9 [DomNode.text 1], DomNode.text 2]⟩

/-- C4 counterexample: the node immediately preceding handle [1] in
preorder document order is the text node at [0, 0], yet `prev_handle`
returns the previous sibling [0] (the container), skipping the sibling's
descendants. -/
theorem c4_counterexample :
    domNested.prev_handle [1] = some [0] ∧
      preorder domNested = [[], [0], [0, 0], [1]] ∧
      domNested.prev_handle [1] ≠ some [0, 0] := by
  refine ⟨by decide, by decide, by decide⟩

theorem drop_eq_cons_of_get? {α : Type} {l : List α} {i : Nat} {c : α}
    (h : l.get? i = some c) : l.drop i = c :: l.drop (i + 1) := by
  have hlt : i < l.length := by
    by_contra hco
    push_neg at hco
    rw [List.get?_eq_none.mpr hco] at h
    exact Option.noConfusion h
  rw [List.drop_eq_get_cons hlt]
  congr 1
  have hg := List.get?_eq_get hlt
  rw [hg] at h
  exact Option.some.inj h

theorem subNextGo_none :
    ∀ frames : List NodeAndChildIndex,
      (∀ p ∈ frames, isContainerNode p.node = true) →
      framesRem frames = [] → (subNextGo frames).1 = none := by
  intro frames
  induction frames with
  | nil => intro _ _; rfl
  | cons f rest ih =>
    rcases f with ⟨n, i⟩
    intro hall hrem
    cases n with
    | container nm cs =>
      rw [framesRem, List.append_eq_nil] at hrem
      cases hg : cs.get? i with
      | some c =>
        have hd := drop_eq_cons_of_get? hg
        rw [hd] at hrem
        have := hrem.1
        rw [preorderNodesList] at this
        rcases List.append_eq_nil.mp this with ⟨h1, _⟩
        cases c <;> simp [preorderNodes] at h1
      | none =>
        simp only [subNextGo, hg]
        exact ih (fun p hp => hall p (List.mem_cons_of_mem _ hp)) hrem.2
    | text d =>
      have := hall ⟨DomNode.text d, i⟩ (List.mem_cons_self _ _)
      simp [isContainerNode] at this
    | lineBreak =>
      have := hall ⟨DomNode.lineBreak, i⟩ (List.mem_cons_self _ _)
      simp [isContainerNode] at this
    | zwsp =>
      have := hall ⟨DomNode.zwsp, i⟩ (List.mem_cons_self _ _)
      simp [isContainerNode] at this

theorem subNextGo_some :
    ∀ (frames : List NodeAndChildIndex) (c : DomNode) (rem : List DomNode),
      (∀ p ∈ frames, isContainerNode p.node = true) →
      framesRem frames = c :: rem →
      ∃ fr2, subNextGo frames = (some c, fr2) ∧
        (∀ p ∈ fr2, isContainerNode p.node = true) ∧
        framesRem fr2 = rem := by
  intro frames
  induction frames with
  | nil => intro c rem _ hrem; rw [framesRem] at hrem; exact absurd hrem (by simp)
  | cons f rest ih =>
    rcases f with ⟨n, i⟩
    intro c rem hall hrem
    cases n with
    | container nm cs =>
      rw [framesRem] at hrem
      cases hg : cs.get? i with
      | some c0 =>
        have hd := drop_eq_cons_of_get? hg
        rw [hd, preorderNodesList] at hrem
        cases c0 with
        | container nm0 cs0 =>
          rw [preorderNodes] at hrem
          simp only [List.cons_append, List.append_assoc] at hrem
          have hc : c = DomNode.container nm0 cs0 := by
            exact (List.cons.inj hrem).1.symm
          have hrm : rem = preorderNodesList cs0 ++
              (preorderNodesList (cs.drop (i + 1)) ++ framesRem rest) :=
            (List.cons.inj hrem).2.symm
          refine ⟨⟨DomNode.container nm0 cs0, 0⟩ ::
            ⟨DomNode.container nm cs, i + 1⟩ :: rest, ?_, ?_, ?_⟩
          · simp only [subNextGo, hg, hc, isContainerNode, if_pos]
          · intro p hp
            rcases List.mem_cons.mp hp with rfl | hp2
            · rfl
            · rcases List.mem_cons.mp hp2 with rfl | hp3
              · rfl
              · exact hall p (List.mem_cons_of_mem _ hp3)
          · rw [framesRem, framesRem]
            simp only [List.drop]
            rw [hrm]
        | text d0 =>
          have hpn : preorderNodes (DomNode.text d0) = [DomNode.text d0] := by
            simp [preorderNodes]
          rw [hpn] at hrem
          simp only [List.cons_append] at hrem
          have hc : c = DomNode.text d0 := (List.cons.inj hrem).1.symm
          have hrm : rem = preorderNodesList (cs.drop (i + 1)) ++
              framesRem rest := (List.cons.inj hrem).2.symm
          refine ⟨⟨DomNode.container nm cs, i + 1⟩ :: rest, ?_, ?_, ?_⟩
          · simp only [subNextGo, hg, hc, isContainerNode, if_neg,
              Bool.false_eq_true, not_false_eq_true]
          · intro p hp
            rcases List.mem_cons.mp hp with rfl | hp2
            · rfl
            · exact hall p (List.mem_cons_of_mem _ hp2)
          · rw [framesRem, hrm]
        | lineBreak =>
          have hpn : preorderNodes DomNode.lineBreak = [DomNode.lineBreak] := by
            simp [preorderNodes]
          rw [hpn] at hrem
          simp only [List.cons_append] at hrem
          have hc : c = DomNode.lineBreak := (List.cons.inj hrem).1.symm
          have hrm : rem = preorderNodesList (cs.drop (i + 1)) ++
              framesRem rest := (List.cons.inj hrem).2.symm
          refine ⟨⟨DomNode.container nm cs, i + 1⟩ :: rest, ?_, ?_, ?_⟩
          · simp only [subNextGo, hg, hc, isContainerNode, if_neg,
              Bool.false_eq_true, not_false_eq_true]
          · intro p hp
            rcases List.mem_cons.mp hp with rfl | hp2
            · rfl
            · exact hall p (List.mem_cons_of_mem _ hp2)
          · rw [framesRem, hrm]
        | zwsp =>
          have hpn : preorderNodes DomNode.zwsp = [DomNode.zwsp] := by
            simp [preorderNodes]
          rw [hpn] at hrem
          simp only [List.cons_append] at hrem
          have hc : c = DomNode.zwsp := (List.cons.inj hrem).1.symm
          have hrm : rem = preorderNodesList (cs.drop (i + 1)) ++
              framesRem rest := (List.cons.inj hrem).2.symm
          refine ⟨⟨DomNode.container nm cs, i + 1⟩ :: rest, ?_, ?_, ?_⟩
          · simp only [subNextGo, hg, hc, isContainerNode, if_neg,
              Bool.false_eq_true, not_false_eq_true]
          · intro p hp
            rcases List.mem_cons.mp hp with rfl | hp2
            · rfl
            · exact hall p (List.mem_cons_of_mem _ hp2)
          · rw [framesRem, hrm]
      | none =>
        have hle : cs.length ≤ i := by
          by_contra hco
          push_neg at hco
          rw [(List.get?_eq_get hco : cs.get? i = _)] at hg
          exact Option.noConfusion hg
        rw [List.drop_eq_nil_of_le hle] at hrem
        rw [preorderNodesList] at hrem
        simp only [List.nil_append] at hrem
        obtain ⟨fr2, hgo, hall2, hrem2⟩ :=
          ih c rem (fun p hp => hall p (List.mem_cons_of_mem _ hp)) hrem
        exact ⟨fr2, by rw [subNextGo, hg]; exact hgo, hall2, hrem2⟩
    | text d =>
      have := hall ⟨DomNode.text d, i⟩ (List.mem_cons_self _ _)
      simp [isContainerNode] at this
    | lineBreak =>
      have := hall ⟨DomNode.lineBreak, i⟩ (List.mem_cons_self _ _)
      simp [isContainerNode] at this
    | zwsp =>
      have := hall ⟨DomNode.zwsp, i⟩ (List.mem_cons_self _ _)
      simp [isContainerNode] at this

theorem collectSub_go :
    ∀ (L : List DomNode) (frames : List NodeAndChildIndex) (fuel : Nat),
      (∀ p ∈ frames, isContainerNode p.node = true) →
      framesRem frames = L → L.length + 1 ≤ fuel →
      collectSub fuel ⟨true, frames⟩ = L := by
  intro L
  induction L with
  | nil =>
    intro frames fuel hall hrem hf
    obtain ⟨f, rfl⟩ : ∃ f, fuel = f + 1 := ⟨fuel - 1, by omega⟩
    have hnone := subNextGo_none frames hall hrem
    have hsn : subNext ⟨true, frames⟩ =
        ((subNextGo frames).1, ⟨true, (subNextGo frames).2⟩) := rfl
    rw [collectSub, hsn, hnone]
  | cons c rem ih =>
    intro frames fuel hall hrem hf
    obtain ⟨f, rfl⟩ : ∃ f, fuel = f + 1 := ⟨fuel - 1, by omega⟩
    obtain ⟨fr2, hgo, hall2, hrem2⟩ := subNextGo_some frames c rem hall hrem
    have hsn : subNext ⟨true, frames⟩ =
        ((subNextGo frames).1, ⟨true, (subNextGo frames).2⟩) := rfl
    have hstep : collectSub (f + 1) ⟨true, frames⟩ =
        c :: collectSub f ⟨true, fr2⟩ := by
      rw [collectSub, hsn, hgo]
    rw [hstep]
    refine congrArg (c :: ·) (ih fr2 f hall2 hrem2 ?_)
    simp only [List.length_cons] at hf
    omega

/-- C5: for every starting node, the subtree forward iterator yields
exactly the starting node and its descendants, each exactly once, in
preorder depth-first order (children left to right): its output is the
preorder node list of the subtree.  In particular it never leaves the
anchor's subtree, a non-container start yields only itself, and the
whole-document `iter()` visits every container before its descendants. -/
theorem c5_subtree_preorder (n : DomNode) (fuel : Nat)
    (hf : (preorderNodes n).length + 1 ≤ fuel) :
    collectSub fuel (DomIterator.over n) = preorderNodes n := by
  have hne1 : 1 ≤ (preorderNodes n).length := by
    cases n <;> simp [preorderNodes]
  obtain ⟨f, rfl⟩ : ∃ f, fuel = f + 2 := ⟨fuel - 2, by omega⟩
  have hstart : collectSub (f + 2) (DomIterator.over n) =
      n :: collectSub (f + 1) ⟨true, [⟨n, 0⟩]⟩ := by
    rw [collectSub]
    rfl
  rw [hstart]
  cases n with
  | container nm cs =>
    rw [preorderNodes]
    refine congrArg _ (collectSub_go (preorderNodesList cs)
      [⟨DomNode.container nm cs, 0⟩] (f + 1) ?_ ?_ ?_)
    · intro p hp
      rcases List.mem_cons.mp hp with rfl | hp2
      · rfl
      · simp at hp2
    · rw [framesRem, framesRem]
      simp
    · rw [preorderNodes] at hf
      simp only [List.length_cons] at hf
      omega
  | text d =>
    have hnone :
        collectSub (f + 1) (⟨true, [⟨DomNode.text d, 0⟩]⟩ : DomIterator) =
          [] := by
      rw [collectSub]
      rfl
    rw [hnone]
    simp [preorderNodes]
  | lineBreak =>
    have hnone :
        collectSub (f + 1) (⟨true, [⟨DomNode.lineBreak, 0⟩]⟩ : DomIterator) =
          [] := by
      rw [collectSub]
      rfl
    rw [hnone]
    simp [preorderNodes]
  | zwsp =>
    have hnone :
        collectSub (f + 1) (⟨true, [⟨DomNode.zwsp, 0⟩]⟩ : DomIterator) =
          [] := by
      rw [collectSub]
      rfl
    rw [hnone]
    simp [preorderNodes]

/-- C5 witness: the example document has 14 nodes; the subtree iterator
over the document node reproduces its preorder node list. -/
theorem c5_subtree_preorder_witness :
    collectSub 16 (DomIterator.over exampleDom.document_node) =
      preorderNodes exampleDom.document_node :=
  c5_subtree_preorder exampleDom.document_node 16 (by decide)

theorem collectFwdFiltered_eq_filter (dom : Dom) (p : DomHandle → Bool) :
    ∀ (fuel : Nat) (s : DomNodeIterator),
      collectFwdFiltered dom p fuel s = (collectFwd dom fuel s).filter p := by
  intro fuel
  induction fuel with
  | zero => intro s; rfl
  | succ f ih =>
    intro s
    rcases hit : iterNext dom s with ⟨o, s2⟩
    cases o with
    | none => simp only [collectFwdFiltered, collectFwd, hit, List.filter_nil]
    | some h =>
      simp only [collectFwdFiltered, collectFwd, hit, List.filter_cons, ih]

theorem collectSubFiltered_eq_filter (p : DomNode → Bool) :
    ∀ (fuel : Nat) (s : DomIterator),
      collectSubFiltered p fuel s = (collectSub fuel s).filter p := by
  intro fuel
  induction fuel with
  | zero => intro s; rfl
  | succ f ih =>
    intro s
    rcases hit : subNext s with ⟨o, s2⟩
    cases o with
    | none => simp only [collectSubFiltered, collectSub, hit, List.filter_nil]
    | some c =>
      simp only [collectSubFiltered, collectSub, hit, List.filter_cons, ih]

/-- C9: every filtering view is exactly the node-kind filter applied to the
output of its underlying unfiltered iterator, for every fuel, anchor and
subtree — text views (`iter_text`, `iter_text_from`,
`iter_text_in_subtree`) keep exactly the text nodes and the container view
(`iter_containers`) keeps exactly the container nodes, order preserved. -/
theorem c9_filter_views (dom : Dom) (n : DomNode) (h : DomHandle)
    (fuel : Nat) :
    iterTextRun dom fuel =
      (collectSub fuel (DomIterator.over dom.document_node)).filter
        isTextNode ∧
      iterContainersRun dom fuel =
        (collectSub fuel (DomIterator.over dom.document_node)).filter
          isContainerNode ∧
      iterTextFromRun dom fuel h =
        (collectFwd dom fuel (DomNodeIterator.over h)).filter (textAt dom) ∧
      iterTextInSubtreeRun n fuel =
        (collectSub fuel (DomIterator.over n)).filter isTextNode :=
  ⟨collectSubFiltered_eq_filter isTextNode fuel _,
   collectSubFiltered_eq_filter isContainerNode fuel _,
   collectFwdFiltered_eq_filter dom (textAt dom) fuel _,
   collectSubFiltered_eq_filter isTextNode fuel _⟩

theorem iterNext_current_eq (dom : Dom) (s : DomNodeIterator) :
    (iterNext dom s).2.current = (iterNext dom s).1 := by
  rcases s with ⟨st, cur, vis⟩
  cases cur with
  | none => rfl
  | some h => cases st <;> rfl

theorem iterNextBack_current_eq (dom : Dom) (s : DomNodeIterator) :
    (iterNextBack dom s).2.current = (iterNextBack dom s).1 := by
  rcases s with ⟨st, cur, vis⟩
  cases cur with
  | none => rfl
  | some h =>
    cases st with
    | false => rfl
    | true =>
      simp only [iterNextBack]
      split
      · split
        · split
          · rfl
          · split <;> rfl
        · split <;> rfl
        · rfl
      · rfl

theorem pull_current_eq (dom : Dom) (d : Bool) (s : DomNodeIterator) :
    (pull dom d s).2.current = (pull dom d s).1 := by
  cases d with
  | true => exact iterNext_current_eq dom s
  | false => exact iterNextBack_current_eq dom s

theorem pull_of_current_none (dom : Dom) (d : Bool) (s : DomNodeIterator)
    (hc : s.current = none) : pull dom d s = (none, s) := by
  rcases s with ⟨st, cur, vis⟩
  cases cur with
  | some h => exact Option.noConfusion hc
  | none => cases d <;> rfl

theorem pullSeq_none (dom : Dom) :
    ∀ (ds : List Bool) (s : DomNodeIterator), s.current = none →
      ∀ o ∈ pullSeq dom ds s, o = none := by
  intro ds
  induction ds with
  | nil => intro s _ o ho; simp [pullSeq] at ho
  | cons d rest ih =>
    intro s hc o ho
    rw [pullSeq, pull_of_current_none dom d s hc] at ho
    rcases List.mem_cons.mp ho with rfl | ho2
    · rfl
    · exact ih s hc o ho2

theorem subNextGo_none_absorb :
    ∀ (frames fr2 : List NodeAndChildIndex),
      subNextGo frames = (none, fr2) → subNextGo fr2 = (none, fr2) := by
  intro frames
  induction frames with
  | nil =>
    intro fr2 hh
    have hfr : fr2 = [] := by
      injection hh with h1 h2
      exact h2.symm
    subst hfr
    rfl
  | cons f rest ih =>
    rcases f with ⟨n, i⟩
    intro fr2 hh
    cases n with
    | container nm cs =>
      cases hg : cs.get? i with
      | some c =>
        rw [subNextGo, hg] at hh
        simp at hh
      | none =>
        rw [subNextGo, hg] at hh
        exact ih fr2 hh
    | text d =>
      have hfr : fr2 = ⟨DomNode.text d, i⟩ :: rest := by
        injection hh with h1 h2
        exact h2.symm
      subst hfr
      rfl
    | lineBreak =>
      have hfr : fr2 = ⟨DomNode.lineBreak, i⟩ :: rest := by
        injection hh with h1 h2
        exact h2.symm
      subst hfr
      rfl
    | zwsp =>
      have hfr : fr2 = ⟨DomNode.zwsp, i⟩ :: rest := by
        injection hh with h1 h2
        exact h2.symm
      subst hfr
      rfl

theorem subNext_none_absorb (st : DomIterator) (h1 : (subNext st).1 = none) :
    subNext (subNext st).2 = (none, (subNext st).2) := by
  rcases st with ⟨sb, frames⟩
  cases sb with
  | false =>
    have hsn : subNext (⟨false, frames⟩ : DomIterator) =
        ((frames.head?).map NodeAndChildIndex.node, ⟨true, frames⟩) := rfl
    rw [hsn] at h1 ⊢
    have hfe : frames = [] := by
      cases frames with
      | nil => rfl
      | cons a t => simp at h1
    subst hfe
    rfl
  | true =>
    have hsn : subNext (⟨true, frames⟩ : DomIterator) =
        ((subNextGo frames).1, ⟨true, (subNextGo frames).2⟩) := rfl
    rcases hgo : subNextGo frames with ⟨o, fr2⟩
    have ho : o = none := by
      rw [hsn, hgo] at h1
      simpa using h1
    subst ho
    have habs := subNextGo_none_absorb frames fr2 hgo
    have h2 : (subNext (⟨true, frames⟩ : DomIterator)).2 =
        ⟨true, fr2⟩ := by
      rw [hsn, hgo]
    rw [h2]
    have hsn2 : subNext (⟨true, fr2⟩ : DomIterator) =
        ((subNextGo fr2).1, ⟨true, (subNextGo fr2).2⟩) := rfl
    rw [hsn2, habs]

theorem subSeq_none (st : DomIterator) (hs : subNext st = (none, st)) :
    ∀ k, ∀ o ∈ subSeq k st, o = none := by
  intro k
  induction k with
  | zero => intro o ho; simp [subSeq] at ho
  | succ j ih =>
    intro o ho
    rw [subSeq, hs] at ho
    rcases List.mem_cons.mp ho with rfl | ho2
    · rfl
    · exact ih o ho2

/-- C10: both iterator types are fused.  Once a pull on the bidirectional
iterator returns nothing (from either end), every later pull — from either
end, in any order — returns nothing; once a pull on the subtree iterator
returns nothing, every later pull returns nothing. -/
theorem c10_fused :
    (∀ (dom : Dom) (s : DomNodeIterator) (d : Bool),
        (pull dom d s).1 = none →
        ∀ (ds : List Bool), ∀ o ∈ pullSeq dom ds (pull dom d s).2,
          o = none) ∧
      (∀ st : DomIterator, (subNext st).1 = none →
        ∀ k, ∀ o ∈ subSeq k (subNext st).2, o = none) := by
  constructor
  · intro dom s d hd ds o ho
    have hc : (pull dom d s).2.current = none := by
      rw [pull_current_eq, hd]
    exact pullSeq_none dom ds (pull dom d s).2 hc o ho
  · intro st h1 k o ho
    have habs := subNext_none_absorb st h1
    have h2 : subNext (subNext st).2 = (none, (subNext st).2) := habs
    exact subSeq_none (subNext st).2 h2 k o ho

/-- C10 witness: in the two-text document, a front pull on an iterator
whose current position is empty yields nothing, and all later pulls in
either direction also yield nothing; likewise for an exhausted subtree
iterator. -/
theorem c10_fused_witness :
    (∀ o ∈ pullSeq domTwoTexts [true, false, true]
        (pull domTwoTexts true ⟨true, none, [[0]]⟩).2, o = none) ∧
      (∀ o ∈ subSeq 3 (subNext ⟨true, []⟩).2, o = none) :=
  ⟨fun o ho => c10_fused.1 domTwoTexts ⟨true, none, [[0]]⟩ true (by decide)
      [true, false, true] o ho,
   fun o ho => c10_fused.2 ⟨true, []⟩ rfl 3 o ho⟩

theorem nsopPanicsRev_false (dom : Dom) :
    ∀ (r : List Nat) (x : DomNode),
      dom.lookup_node r.reverse = some x → nsopPanicsRev dom r = false := by
  intro r
  induction r with
  | nil => intro x _; rfl
  | cons j pr ih =>
    intro x hx
    have hxx : dom.lookup_node (pr.reverse ++ [j]) = some x := by
      simpa [List.reverse_cons] using hx
    obtain ⟨nm, cs, hpar, _⟩ :=
      lookup_parent_container dom (pr.reverse ++ [j]) x (by simp) hxx
    rw [List.dropLast_concat] at hpar
    simp only [nsopPanicsRev, hpar]
    by_cases h1 : j + 1 < cs.length
    · rw [if_pos h1]
    · rw [if_neg h1]
      by_cases h2 : pr = []
      · rw [if_pos h2]
      · rw [if_neg h2]
        exact ih (DomNode.container nm cs) hpar

theorem psopPanicsRev_false (dom : Dom) :
    ∀ (r : List Nat) (x : DomNode),
      dom.lookup_node r.reverse = some x →
      ∀ vis, psopPanicsRev dom r vis = false := by
  intro r
  induction r with
  | nil => intro x _ vis; rfl
  | cons j pr ih =>
    intro x hx vis
    have hxx : dom.lookup_node (pr.reverse ++ [j]) = some x := by
      simpa [List.reverse_cons] using hx
    obtain ⟨nm, cs, hpar, _⟩ :=
      lookup_parent_container dom (pr.reverse ++ [j]) x (by simp) hxx
    rw [List.dropLast_concat] at hpar
    simp only [psopPanicsRev, hpar]
    by_cases h1 : 0 < j
    · rw [if_pos h1]
    · rw [if_neg h1]
      by_cases h2 : pr = []
      · rw [if_pos h2]
      · rw [if_neg h2]
        by_cases h3 : pr.reverse ∈ vis
        · rw [if_pos h3]
          exact ih (DomNode.container nm cs) hpar vis
        · rw [if_neg h3]

/-- C8: for every tree of the model (where, by construction, the parent
prefix of every resolvable handle resolves to a container — the assumed
structural invariant) and every handle that resolves to a node, evaluating
`next_sibling_or_parent` or `prev_sibling_or_parent` (with any visited set)
never takes the `Parent node must be a container` panic branch at any point
of the recursive ascent: the helpers are total on such handles.  The
address arithmetic of `DomHandle` (parent, index in parent, child) is
modelled from the spec, as that type lives outside this module. -/
theorem c8_no_container_panic (dom : Dom) (h : DomHandle) (x : DomNode)
    (hv : dom.lookup_node h = some x) :
    nsopPanics dom h = false ∧ ∀ vis, psopPanics dom h vis = false := by
  constructor
  · exact nsopPanicsRev_false dom h.reverse x
      (by simpa [List.reverse_reverse] using hv)
  · intro vis
    exact psopPanicsRev_false dom h.reverse x
      (by simpa [List.reverse_reverse] using hv) vis

/-- C8 witness: in the example document the helpers are panic free at the
first list item, with an arbitrary sample visited set. -/
theorem c8_no_container_panic_witness :
    nsopPanics exampleDom [0, 0] = false ∧
      psopPanics exampleDom [0, 0] [[0], []] = false :=
  ⟨(c8_no_container_panic exampleDom [0, 0]
      (DomNode.container 2 [DomNode.text 1,
        DomNode.container 3 [DomNode.text 2]]) rfl).1,
   (c8_no_container_panic exampleDom [0, 0]
      (DomNode.container 2 [DomNode.text 1,
        DomNode.container 3 [DomNode.text 2]]) rfl).2 [[0], []]⟩
